import Mathlib

/-!
Shallow embedding of the dependency-tree normalization code of
`src/agents/dependency_extraction_agent.py` and proofs about it.

The parsers operate on the result of `json.loads`: we embed JSON values as
`JValue` (numbers as integers; float literals play no role in any property
below) and model a raw report text by the outcome of structured parsing,
`Option JValue`, where `none` stands for a `json.JSONDecodeError`.
Python exceptions that the source does not catch (`AttributeError`,
`TypeError`, `KeyError`, `RecursionError`) are modelled by the `.error`
side of `Except PyExc`: an `.error e` result means the Python function
raises `e` to its caller instead of returning.  String lower-casing and
whitespace handling are modelled at ASCII level, which coincides with
CPython's behaviour on the ASCII reports these tools emit.
-/

namespace DepExtract

-- Embedded JSON values (the result of `json.loads`).  Arrays and objects
-- are mutually inductive lists so that decidable equality and structural
-- computation are available.
mutual
inductive JValue where
  | null
  | bool (b : Bool)
  | num  (n : Int)
  | str  (s : String)
  | arr  (elems : JArray)
  | obj  (fields : JObject)
  deriving DecidableEq
inductive JArray where
  | nil
  | cons (hd : JValue) (tl : JArray)
  deriving DecidableEq
inductive JObject where
  | nil
  | cons (key : String) (val : JValue) (tl : JObject)
  deriving DecidableEq
end

/-- Convert an embedded JSON array to a Lean list of values. -/
def JArray.toList : JArray → List JValue
  | .nil => []
  | .cons x t => x :: t.toList

/-- Build an embedded JSON array from a list (used to write concrete inputs). -/
def jarr : List JValue → JArray
  | [] => .nil
  | x :: t => .cons x (jarr t)

/-- Build an embedded JSON object from a list of fields. -/
def jobj : List (String × JValue) → JObject
  | [] => .nil
  | (k, v) :: t => .cons k v (jobj t)

/-- Python exceptions that can escape the parsing code (the source catches
only `json.JSONDecodeError`, modelled by the `none` input case). -/
inductive PyExc where
  | attributeError
  | typeError
  | keyError
  | recursionError
  deriving DecidableEq

/-- Canonical dependency entry, exactly the dictionary built at lines
131-136 of `dependency_extraction_agent.py`: `installed_version` values are
stored as read from the report, hence `JValue`. -/
structure Entry where
  key : String
  package_name : String
  installed_versions : List JValue
  is_transitive : Bool
  deriving DecidableEq

/-- The `dependency_map` dictionary: an insertion-ordered association list,
which is how CPython dictionaries iterate. -/
abbrev DepMap := List (String × Entry)

/-- Model of `dict.get` on an embedded JSON object (first matching field). -/
def getField (fields : JObject) (k : String) : Option JValue :=
  match fields with
  | .nil => none
  | .cons k' v rest => if k' = k then some v else getField rest k

/-- Model of `key in dict` for an embedded JSON object. -/
def hasField (fields : JObject) (k : String) : Bool :=
  (getField fields k).isSome

/-- Python truthiness of a JSON value (`None`, `False`, `0`, `""`, `[]`,
`{}` are falsy). -/
def pyTruthy : JValue → Bool
  | .null => false
  | .bool b => b
  | .num n => !(n == 0)
  | .str s => !(s == "")
  | .arr xs => !(xs == .nil)
  | .obj fs => !(fs == .nil)

/-- ASCII lower-casing of one character, as `str.lower` acts on ASCII. -/
def charLower (c : Char) : Char :=
  if 'A' ≤ c ∧ c ≤ 'Z' then Char.ofNat (c.toNat + 32) else c

/-- Model of Python `str.lower` (ASCII fragment). -/
def pyLower (s : String) : String :=
  String.mk (s.toList.map charLower)

/-- Lookup in `dependency_map` (`dependency_map[key]` / `key in dependency_map`). -/
def findEntry (m : DepMap) (k : String) : Option Entry :=
  match m with
  | [] => none
  | (k', e) :: rest => if k' = k then some e else findEntry rest k

/-- In-place mutation of the entry stored under `k` (Python mutates the
dictionary value object; its position in iteration order is unchanged). -/
def updateEntry (m : DepMap) (k : String) (e : Entry) : DepMap :=
  match m with
  | [] => []
  | (k', e') :: rest =>
    if k' = k then (k', e) :: updateEntry rest k e else (k', e') :: updateEntry rest k e

/-- Line 122: `dep_obj.get("package_name") or dep_obj.get("key", "unknown")`.
`or` takes the second operand when the first is missing or falsy. -/
def entryName (fields : JObject) : JValue :=
  match getField fields "package_name" with
  | some v => if pyTruthy v then v else (getField fields "key").getD (.str "unknown")
  | none => (getField fields "key").getD (.str "unknown")

/-- Line 123: `dep_obj.get("installed_version", "unknown")`. -/
def installedVersionOf (fields : JObject) : JValue :=
  (getField fields "installed_version").getD (.str "unknown")

/-- Lines 122-136 of `traverse_deps`: compute the name (an `AttributeError`
is raised by `package_name.lower()` when the name value is not a string),
normalize the key, and upsert into `dependency_map`: an existing entry only
has the version appended when new; a fresh entry records the current
transitivity flag. -/
def upsertNode (fields : JObject) (trans : Bool) (m : DepMap) : Except PyExc DepMap :=
  match entryName fields with
  | .str displayName =>
    let key := pyLower displayName
    let iv := installedVersionOf fields
    match findEntry m key with
    | some e =>
      if iv ∈ e.installed_versions then .ok m
      else .ok (updateEntry m key { e with installed_versions := e.installed_versions ++ [iv] })
    | none => .ok (m ++ [(key, ⟨key, displayName, [iv], trans⟩)])
  | _ => .error .attributeError

/-- Line 139: `dep_obj.get("dependencies", [])` followed by the `for` loop.
Iterating a list visits its elements (the recursive calls, always
transitive); iterating a non-empty string or dict feeds a string to
`traverse_deps`, whose first `.get` raises `AttributeError`; iterating a
number, boolean or `None` raises `TypeError`. -/
def childTasks (fields : JObject) : Except PyExc (List (JValue × Bool)) :=
  match (getField fields "dependencies").getD (.arr .nil) with
  | .arr xs => .ok (xs.toList.map (fun x => (x, true)))
  | .str s => if s = "" then .ok [] else .error .attributeError
  | .obj fs => if fs = .nil then .ok [] else .error .attributeError
  | _ => .error .typeError

/-- CPython's recursion limit, which bounds the nesting the recursive
`traverse_deps` can process before `RecursionError`.  The fuel decreases
once per processed node; results are only claimed on runs that return. -/
def RECURSION_LIMIT : Nat := 1000

/-- The recursion of `traverse_deps` (lines 120-144) written with an
explicit pre-order worklist: each task is a node paired with the
`is_transitive` flag of that visit; children are pushed in front of the
remaining tasks, giving exactly the source's depth-first visit order.
A non-dict node raises `AttributeError` at `dep_obj.get` (line 122). -/
def traverse_deps : Nat → List (JValue × Bool) → DepMap → Except PyExc DepMap
  | 0, _, _ => .error .recursionError
  | _ + 1, [], m => .ok m
  | fuel + 1, (dep, tr) :: stack, m =>
    match dep with
    | .obj fields =>
      match upsertNode fields tr m with
      | .error e => .error e
      | .ok m' =>
        match childTasks fields with
        | .error e => .error e
        | .ok ts => traverse_deps fuel (ts ++ stack) m'
    | _ => .error .attributeError

/-- Sort key of an entry: Python compares strings by code points, which is
the lexicographic order on the character list. -/
def nameKey (e : Entry) : List Char :=
  e.package_name.toList

/-- Stable insertion of an entry into a list sorted by `package_name`,
matching the stability of Python's `sorted(..., key=lambda x: x["package_name"])`. -/
def insertByName (a : Entry) : List Entry → List Entry
  | [] => [a]
  | b :: l =>
    if nameKey a ≤ nameKey b then a :: b :: l else b :: insertByName a l

/-- Line 147: `sorted(dependency_map.values(), key=lambda x: x["package_name"])`
as a stable insertion sort. -/
def sortByName : List Entry → List Entry
  | [] => []
  | a :: l => insertByName a (sortByName l)

/-- `_parse_pipdeptree` (lines 104-153) on the outcome of `json.loads`:
decode failure is caught and yields `[]`; a non-list top level yields `[]`;
otherwise every top-level element is traversed non-transitively and the
map's values are returned sorted by `package_name`. -/
def parse_pipdeptree (input : Option JValue) : Except PyExc (List Entry) :=
  match input with
  | none => .ok []
  | some (.arr deps) =>
    match traverse_deps RECURSION_LIMIT (deps.toList.map (fun d => (d, false))) [] with
    | .error e => .error e
    | .ok m => .ok (sortByName (m.map Prod.snd))
  | some _ => .ok []

/-- One record of the JavaScript flattener: `{"name": name, "version": version}`
(line 202). -/
structure NpmDep where
  name : String
  version : JValue
  deriving DecidableEq

/-- Check that `needle` is a leading segment of `hay`. -/
def listStarts : List Char → List Char → Bool
  | [], _ => true
  | _ :: _, [] => false
  | a :: as, b :: bs => a == b && listStarts as bs

/-- Check that `needle` occurs contiguously inside `hay`. -/
def listInfix : List Char → List Char → Bool
  | needle, [] => needle.isEmpty
  | needle, c :: rest => listStarts needle (c :: rest) || listInfix needle rest

/-- Model of Python `needle in hay` for strings: substring test. -/
def strInStr (needle hay : String) : Bool :=
  listInfix needle.toList hay.toList

/-- Model of Python `v in list` (element membership by equality). -/
def arrContains (xs : JArray) (v : JValue) : Bool :=
  match xs with
  | .nil => false
  | .cons x t => x == v || arrContains t v

/-- Model of Python `"dependencies" in data` on an arbitrary JSON value:
key membership for dicts, element membership for lists, substring test for
strings, `TypeError` otherwise. -/
def pyContains (needle : String) (j : JValue) : Except PyExc Bool :=
  match j with
  | .obj fields => .ok (hasField fields needle)
  | .arr xs => .ok (arrContains xs (.str needle))
  | .str hay => .ok (strInStr needle hay)
  | _ => .error .typeError

/-- Model of Python `data["dependencies"]`: dict lookup (`KeyError` when
missing); indexing a list or string with a string key raises `TypeError`. -/
def pyIndex (j : JValue) (k : String) : Except PyExc JValue :=
  match j with
  | .obj fields =>
    match getField fields k with
    | some v => .ok v
    | none => .error .keyError
  | _ => .error .typeError

/-- Worklist frames for the nested `traverse` of `_parse_npm_list`:
either a `deps` value about to be iterated with `.items()`, or the
remaining items of a dict being iterated. -/
inductive NpmFrame where
  | enter (v : JValue)
  | items (fs : JObject)

/-- The recursion of `traverse` in `_parse_npm_list` (lines 199-204) with
an explicit worklist, preserving the source's append order: for each
`(name, info)` item, `info.get` requires a dict (`AttributeError`
otherwise), a record is appended, and when `info` has a `"dependencies"`
field its value is traversed before the remaining siblings. -/
def npmTraverse : Nat → List NpmFrame → List NpmDep → Except PyExc (List NpmDep)
  | 0, _, _ => .error .recursionError
  | _ + 1, [], acc => .ok acc
  | fuel + 1, .enter v :: rest, acc =>
    match v with
    | .obj fields => npmTraverse fuel (.items fields :: rest) acc
    | _ => .error .attributeError
  | fuel + 1, .items .nil :: rest, acc => npmTraverse fuel rest acc
  | fuel + 1, .items (.cons name info fs) :: rest, acc =>
    match info with
    | .obj infoFields =>
      let version := (getField infoFields "version").getD (.str "unknown")
      let acc' := acc ++ [⟨name, version⟩]
      match getField infoFields "dependencies" with
      | some v => npmTraverse fuel (.enter v :: .items fs :: rest) acc'
      | none => npmTraverse fuel (.items fs :: rest) acc'
    | _ => .error .attributeError

/-- `_parse_npm_list` (lines 191-213) on the outcome of `json.loads`:
decode failure yields `[]`; then `if "dependencies" in data:` (which can
itself raise `TypeError`), indexing, and the nested traversal. -/
def parse_npm_list (input : Option JValue) : Except PyExc (List NpmDep) :=
  match input with
  | none => .ok []
  | some data =>
    match pyContains "dependencies" data with
    | .error e => .error e
    | .ok false => .ok []
    | .ok true =>
      match pyIndex data "dependencies" with
      | .error e => .error e
      | .ok v => npmTraverse RECURSION_LIMIT [.enter v] []

/-- One record of the Java flattener: `{"name": parts[1], "version": "unknown"}`
(line 256). -/
structure MavenDep where
  name : String
  version : String
  deriving DecidableEq

/-- ASCII whitespace as recognized by Python `str.strip` / `str.split`. -/
def pyIsSpace (c : Char) : Bool :=
  c == ' ' || c == '\t' || c == '\n' || c == '\r' || c == '\x0b' || c == '\x0c'

/-- Model of `str.strip()` on the character list. -/
def charStrip (l : List Char) : List Char :=
  ((l.dropWhile pyIsSpace).reverse.dropWhile pyIsSpace).reverse

/-- Model of `str.split("\n")`: split at every separator, keeping empties. -/
def splitOnChar (sep : Char) : List Char → List (List Char)
  | [] => [[]]
  | c :: rest =>
    match splitOnChar sep rest with
    | [] => [[]]
    | t :: ts => if c = sep then [] :: t :: ts else (c :: t) :: ts

/-- Model of no-argument `str.split()`: whitespace-delimited tokens,
discarding empty fields.  `cur` holds the current token reversed. -/
def pySplitWsAux (cur : List Char) (l : List Char) : List (List Char) :=
  match l with
  | [] => if cur = [] then [] else [cur.reverse]
  | c :: rest =>
    if pyIsSpace c then
      if cur = [] then pySplitWsAux [] rest else cur.reverse :: pySplitWsAux [] rest
    else pySplitWsAux (c :: cur) rest

/-- `_parse_maven_tree` (lines 246-259): strip the report, split into
lines, and for every line with at least two whitespace-delimited tokens
append a record named by the second token with version `"unknown"`. -/
def parse_maven_tree (stdout : String) : List MavenDep :=
  (splitOnChar '\n' (charStrip stdout.toList)).foldl
    (fun acc line =>
      match pySplitWsAux [] line with
      | _ :: second :: _ => acc ++ [⟨String.mk second, "unknown"⟩]
      | _ => acc)
    []

/-- Line 10: `SUPPORTED_LANGUAGES = ["python", "javascript", "java"]`. -/
def SUPPORTED_LANGUAGES : List String := ["python", "javascript", "java"]

/-- The hard failure raised by `DependencyExtractionAgent.__init__`
(line 36, a `ValueError`), which the spec names `UnsupportedEcosystem`. -/
inductive AgentFailure where
  | unsupportedEcosystem (language : String)
  deriving DecidableEq

/-- `DependencyExtractionAgent.__init__` (lines 21-36) restricted to its
language handling: the tag is lower-cased (line 27) and construction fails
before any extraction when it is not supported (lines 35-36).  On success
the normalized tag is returned. -/
def agentInit (language : String) : Except AgentFailure String :=
  let lang := pyLower language
  if lang ∈ SUPPORTED_LANGUAGES then .ok lang
  else .error (.unsupportedEcosystem lang)

/-- Spec-side canonical entry (spec section 6): fields
`{key, package_name, installed_versions : [string], is_transitive}`. -/
structure SpecCanonEntry where
  key : String
  package_name : String
  installed_versions : List String
  is_transitive : Bool
  deriving DecidableEq

/-- Spec-side view of one edge-list record as a canonical entry, following
the spec's words (sections 3, 4.3): the key is the lower-cased name, the
single observed version is `"unknown"`, and `isTransitive` defaults to
false for the edge-list ecosystem. -/
def specCanonOfMavenDep (d : MavenDep) : SpecCanonEntry :=
  ⟨pyLower d.name, d.name, [d.version], false⟩

/-- Entry evolution under later merges: identity fields and the
transitivity flag are unchanged and versions are only appended. -/
def EntryExt (e e' : Entry) : Prop :=
  e'.key = e.key ∧ e'.package_name = e.package_name ∧
  e'.is_transitive = e.is_transitive ∧
  ∃ t, e'.installed_versions = e.installed_versions ++ t

/-- Map evolution: every entry present before is still present afterwards,
evolved only by `EntryExt`. -/
def MapExt (m m' : DepMap) : Prop :=
  ∀ k e, findEntry m k = some e → ∃ e', findEntry m' k = some e' ∧ EntryExt e e'

/-- Well-formedness of `dependency_map`: association keys are distinct and
each stored entry's `key` field equals its association key. -/
def KeysInv (m : DepMap) : Prop :=
  (m.map Prod.fst).Nodup ∧ ∀ p ∈ m, (Prod.snd p).key = p.1

/-- No entry of the map carries a duplicated version. -/
def VersInv (m : DepMap) : Prop :=
  ∀ p ∈ m, (Prod.snd p).installed_versions.Nodup

/-- Concrete node: package `a` at version `2.0.0`, no children. -/
def wNodeA : JValue :=
  .obj (jobj [("package_name", .str "a"), ("installed_version", .str "2.0.0")])

/-- Concrete fields: package `a` at version `1.0.0`, no children. -/
def wRootFields : JObject :=
  jobj [("package_name", .str "a"), ("installed_version", .str "1.0.0")]

/-- Concrete node: package `b` at version `0.1` with the nested child
`a` at `2.0.0`. -/
def wHostNode : JValue :=
  .obj (jobj
    [ ("package_name", .str "b"), ("installed_version", .str "0.1"),
      ("dependencies", .arr (jarr [wNodeA])) ])

/-- Concrete pipdeptree forest for the transitivity-order counterexample:
package `a` first as a top-level root at `1.0.0`, then as a nested child
(at `2.0.0`) of the root `b`. -/
def rootFirstForest : JValue :=
  .arr (jarr [.obj wRootFields, wHostNode])

/-- Final `dependency_map` after traversing `rootFirstForest`. -/
def wFinalMap : DepMap :=
  [("a", ⟨"a", "a", [.str "1.0.0", .str "2.0.0"], false⟩),
   ("b", ⟨"b", "b", [.str "0.1"], false⟩)]

/-- Concrete one-entry map holding `a` at `1.0.0`, non-transitive. -/
def wMapA : DepMap := [("a", ⟨"a", "a", [.str "1.0.0"], false⟩)]

/-- The map `wMapA` after merging the visit of `wNodeA`. -/
def wMapA2 : DepMap := [("a", ⟨"a", "a", [.str "1.0.0", .str "2.0.0"], false⟩)]

/-- Concrete one-entry map holding `x` (displayed `X`) at `1`, transitive. -/
def wMapX : DepMap := [("x", ⟨"x", "X", [.str "1"], true⟩)]

/-- The map `wMapX` after merging a root re-visit of `X` at `2`. -/
def wMapX2 : DepMap := [("x", ⟨"x", "X", [.str "1", .str "2"], true⟩)]

/-- Concrete node: package `X` at version `2`, no children. -/
def wNodeX : JValue :=
  .obj (jobj [("package_name", .str "X"), ("installed_version", .str "2")])

/-- Looking an entry up succeeds only on stored pairs. -/
theorem findEntry_mem {m : DepMap} {k : String} {e : Entry}
    (h : findEntry m k = some e) : (k, e) ∈ m := by
  induction m with
  | nil => simp [findEntry] at h
  | cons p rest ih =>
    obtain ⟨k', e'⟩ := p
    by_cases hk : k' = k
    · subst hk
      simp [findEntry] at h
      subst h
      exact List.mem_cons_self _ _
    · simp [findEntry, hk] at h
      exact List.mem_cons_of_mem _ (ih h)

/-- A failed lookup means the key is absent from the association keys. -/
theorem findEntry_none_not_mem {m : DepMap} {k : String}
    (h : findEntry m k = none) : k ∉ m.map Prod.fst := by
  induction m with
  | nil => simp
  | cons p rest ih =>
    obtain ⟨k', e'⟩ := p
    by_cases hk : k' = k
    · subst hk; simp [findEntry] at h
    · simp only [findEntry, if_neg hk] at h
      intro hmem
      rw [List.map_cons] at hmem
      rcases List.mem_cons.mp hmem with hc | hc
      · exact hk hc.symm
      · exact ih h hc

/-- Lookups that succeed are unaffected by appending entries. -/
theorem findEntry_append_left {m l : DepMap} {k : String} {e : Entry}
    (h : findEntry m k = some e) : findEntry (m ++ l) k = some e := by
  induction m with
  | nil => simp [findEntry] at h
  | cons p rest ih =>
    obtain ⟨k', e'⟩ := p
    by_cases hk : k' = k
    · subst hk; simp [findEntry] at h ⊢; exact h
    · simp [findEntry, hk] at h ⊢; exact ih h

/-- Appending a fresh key makes it found. -/
theorem findEntry_append_new {m : DepMap} {k : String} {e : Entry}
    (h : findEntry m k = none) : findEntry (m ++ [(k, e)]) k = some e := by
  induction m with
  | nil => simp [findEntry]
  | cons p rest ih =>
    obtain ⟨k', e'⟩ := p
    by_cases hk : k' = k
    · subst hk; simp [findEntry] at h
    · simp [findEntry, hk] at h ⊢; exact ih h

/-- Updating a present key makes the new entry found. -/
theorem findEntry_update_self {m : DepMap} {k : String} {e₀ e : Entry}
    (h : findEntry m k = some e₀) : findEntry (updateEntry m k e) k = some e := by
  induction m with
  | nil => simp [findEntry] at h
  | cons p rest ih =>
    obtain ⟨k', e'⟩ := p
    by_cases hk : k' = k
    · subst hk; simp [updateEntry, findEntry]
    · simp [findEntry, hk] at h
      simp [updateEntry, findEntry, hk]
      exact ih h

/-- Updating one key leaves lookups of other keys unchanged. -/
theorem findEntry_update_ne {m : DepMap} {k k' : String} {e : Entry}
    (h : k' ≠ k) : findEntry (updateEntry m k e) k' = findEntry m k' := by
  induction m with
  | nil => simp [updateEntry]
  | cons p rest ih =>
    obtain ⟨k₀, e₀⟩ := p
    by_cases hk : k₀ = k
    · have hne : k₀ ≠ k' := by rw [hk]; exact h.symm
      simp only [updateEntry, if_pos hk, findEntry, if_neg hne]
      exact ih
    · simp only [updateEntry, if_neg hk, findEntry]
      by_cases hk' : k₀ = k'
      · rw [if_pos hk', if_pos hk']
      · rw [if_neg hk', if_neg hk']
        exact ih

/-- Updating preserves the association keys in order. -/
theorem updateEntry_map_fst (m : DepMap) (k : String) (e : Entry) :
    (updateEntry m k e).map Prod.fst = m.map Prod.fst := by
  induction m with
  | nil => rfl
  | cons p rest ih =>
    obtain ⟨k', e'⟩ := p
    by_cases hk : k' = k <;> simp [updateEntry, hk, ih]

/-- Members of an updated map are the new pair (stored under the updated
key) or old members. -/
theorem mem_updateEntry {m : DepMap} {k : String} {e : Entry} {p : String × Entry}
    (h : p ∈ updateEntry m k e) : p = (k, e) ∨ p ∈ m := by
  induction m with
  | nil => simp [updateEntry] at h
  | cons q rest ih =>
    obtain ⟨k', e'⟩ := q
    by_cases hk : k' = k
    · subst hk
      simp [updateEntry] at h
      rcases h with h | h
      · exact Or.inl h
      · rcases ih h with h' | h'
        · exact Or.inl h'
        · exact Or.inr (List.mem_cons_of_mem _ h')
    · simp [updateEntry, hk] at h
      rcases h with h | h
      · exact Or.inr (h ▸ List.mem_cons_self _ _)
      · rcases ih h with h' | h'
        · exact Or.inl h'
        · exact Or.inr (List.mem_cons_of_mem _ h')

/-- Entry evolution is reflexive. -/
theorem entryExt_refl (e : Entry) : EntryExt e e :=
  ⟨rfl, rfl, rfl, [], (List.append_nil _).symm⟩

/-- Entry evolution is transitive. -/
theorem entryExt_trans {a b c : Entry} (h₁ : EntryExt a b) (h₂ : EntryExt b c) :
    EntryExt a c := by
  obtain ⟨k₁, n₁, t₁, u, hu⟩ := h₁
  obtain ⟨k₂, n₂, t₂, v, hv⟩ := h₂
  exact ⟨k₂.trans k₁, n₂.trans n₁, t₂.trans t₁, u ++ v,
    by rw [hv, hu, List.append_assoc]⟩

/-- Map evolution is reflexive. -/
theorem mapExt_refl (m : DepMap) : MapExt m m :=
  fun _ e h => ⟨e, h, entryExt_refl e⟩

/-- Map evolution is transitive. -/
theorem mapExt_trans {a b c : DepMap} (h₁ : MapExt a b) (h₂ : MapExt b c) :
    MapExt a c := by
  intro k e h
  obtain ⟨e₁, hf₁, he₁⟩ := h₁ k e h
  obtain ⟨e₂, hf₂, he₂⟩ := h₂ k e₁ hf₁
  exact ⟨e₂, hf₂, entryExt_trans he₁ he₂⟩

/-- Inversion of one successful upsert (lines 122-136): the visited name is
a string, and the result is one of the three source behaviours: version
already recorded (map unchanged), new version appended to the existing
entry, or a fresh entry created with the current transitivity flag. -/
theorem upsertNode_cases {fields : JObject} {tr : Bool} {m m' : DepMap}
    (h : upsertNode fields tr m = .ok m') :
    ∃ s, entryName fields = .str s ∧
      ((∃ e, findEntry m (pyLower s) = some e ∧
          installedVersionOf fields ∈ e.installed_versions ∧ m' = m) ∨
       (∃ e, findEntry m (pyLower s) = some e ∧
          installedVersionOf fields ∉ e.installed_versions ∧
          m' = updateEntry m (pyLower s)
            { e with installed_versions :=
                e.installed_versions ++ [installedVersionOf fields] }) ∨
       (findEntry m (pyLower s) = none ∧
          m' = m ++ [(pyLower s,
            ⟨pyLower s, s, [installedVersionOf fields], tr⟩)])) := by
  unfold upsertNode at h
  cases hname : entryName fields <;> simp only [hname] at h <;> try cases h
  case str s =>
  refine ⟨s, rfl, ?_⟩
  cases hfind : findEntry m (pyLower s) <;> simp only [hfind] at h
  case none =>
    cases h
    exact Or.inr (Or.inr ⟨rfl, rfl⟩)
  case some e =>
    by_cases hiv : installedVersionOf fields ∈ e.installed_versions
    · rw [if_pos hiv] at h
      cases h
      exact Or.inl ⟨e, rfl, hiv, rfl⟩
    · rw [if_neg hiv] at h
      cases h
      exact Or.inr (Or.inl ⟨e, rfl, hiv, rfl⟩)

/-- One upsert (lines 127-136) only evolves the map: existing entries keep
their key, display name and transitivity flag, and may gain appended
versions. -/
theorem upsert_mapExt {fields : JObject} {tr : Bool} {m m' : DepMap}
    (h : upsertNode fields tr m = .ok m') : MapExt m m' := by
  obtain ⟨s, -, hcase⟩ := upsertNode_cases h
  rcases hcase with ⟨e, hfind, hiv, rfl⟩ | ⟨e, hfind, hiv, rfl⟩ | ⟨hfind, rfl⟩
  · exact mapExt_refl _
  · intro k e₁ hk
    by_cases hkk : k = pyLower s
    · subst hkk
      rw [hk] at hfind
      cases hfind
      exact ⟨_, findEntry_update_self hk,
        rfl, rfl, rfl, [installedVersionOf fields], rfl⟩
    · rw [findEntry_update_ne hkk]
      exact ⟨e₁, hk, entryExt_refl e₁⟩
  · intro k e₁ hk
    exact ⟨e₁, findEntry_append_left hk, entryExt_refl e₁⟩

/-- One upsert preserves well-formedness of the map. -/
theorem upsert_keysInv {fields : JObject} {tr : Bool} {m m' : DepMap}
    (hk : KeysInv m) (h : upsertNode fields tr m = .ok m') : KeysInv m' := by
  obtain ⟨s, -, hcase⟩ := upsertNode_cases h
  rcases hcase with ⟨e, hfind, hiv, rfl⟩ | ⟨e, hfind, hiv, rfl⟩ | ⟨hfind, rfl⟩
  · exact hk
  · have hkey : e.key = pyLower s := hk.2 _ (findEntry_mem hfind)
    refine ⟨by rw [updateEntry_map_fst]; exact hk.1, ?_⟩
    intro p hp
    rcases mem_updateEntry hp with hp' | hp'
    · subst hp'
      exact hkey
    · exact hk.2 _ hp'
  · constructor
    · simp only [List.map_append, List.map_cons, List.map_nil]
      rw [List.nodup_append]
      exact ⟨hk.1, List.nodup_singleton _,
        by simpa using fun hmem => findEntry_none_not_mem hfind hmem⟩
    · intro p hp
      rcases List.mem_append.mp hp with hp' | hp'
      · exact hk.2 _ hp'
      · simp at hp'
        subst hp'
        rfl

/-- One upsert never introduces a duplicated version: an existing entry
only gains a version that was checked absent (line 128), and a fresh entry
holds a single version. -/
theorem upsert_versInv {fields : JObject} {tr : Bool} {m m' : DepMap}
    (hv : VersInv m) (h : upsertNode fields tr m = .ok m') : VersInv m' := by
  obtain ⟨s, -, hcase⟩ := upsertNode_cases h
  rcases hcase with ⟨e, hfind, hiv, rfl⟩ | ⟨e, hfind, hiv, rfl⟩ | ⟨hfind, rfl⟩
  · exact hv
  · intro p hp
    rcases mem_updateEntry hp with hp' | hp'
    · subst hp'
      have hnd : e.installed_versions.Nodup := hv _ (findEntry_mem hfind)
      simp [List.nodup_append, hnd, hiv]
    · exact hv _ hp'
  · intro p hp
    rcases List.mem_append.mp hp with hp' | hp'
    · exact hv _ hp'
    · simp at hp'
      subst hp'
      exact List.nodup_singleton _

/-- One successful upsert records the visited version under the visited
key. -/
theorem upsert_adds_version {fields : JObject} {tr : Bool} {m m' : DepMap} {s : String}
    (hname : entryName fields = .str s) (h : upsertNode fields tr m = .ok m') :
    ∃ e, findEntry m' (pyLower s) = some e ∧
      installedVersionOf fields ∈ e.installed_versions := by
  obtain ⟨s', hname', hcase⟩ := upsertNode_cases h
  rw [hname] at hname'
  cases hname'
  rcases hcase with ⟨e, hfind, hiv, rfl⟩ | ⟨e, hfind, hiv, rfl⟩ | ⟨hfind, rfl⟩
  · exact ⟨e, hfind, hiv⟩
  · exact ⟨_, findEntry_update_self hfind, by simp⟩
  · exact ⟨_, findEntry_append_new hfind, by simp⟩

/-- Any reflexive, transitive relation preserved by single upserts is
preserved by the whole traversal (lines 120-144). -/
theorem traverse_rel {R : DepMap → DepMap → Prop}
    (hrefl : ∀ m, R m m)
    (htrans : ∀ {a b c : DepMap}, R a b → R b c → R a c)
    (hupsert : ∀ (fields : JObject) (tr : Bool) (m m' : DepMap),
      upsertNode fields tr m = .ok m' → R m m') :
    ∀ (fuel : Nat) (stack : List (JValue × Bool)) (m m' : DepMap),
      traverse_deps fuel stack m = .ok m' → R m m' := by
  intro fuel
  induction fuel with
  | zero =>
    intro stack m m' h
    exact absurd h (by simp [traverse_deps])
  | succ f ih =>
    intro stack m m' h
    cases stack with
    | nil =>
      simp only [traverse_deps, Except.ok.injEq] at h
      subst h
      exact hrefl m
    | cons task rest =>
      obtain ⟨dep, tr⟩ := task
      cases dep <;> simp only [traverse_deps] at h <;> try cases h
      case obj fields =>
      cases hup : upsertNode fields tr m <;> simp only [hup] at h
      case error e => cases h
      case ok m₀ =>
      cases hct : childTasks fields <;> simp only [hct] at h
      case error e => cases h
      case ok ts =>
      exact htrans (hupsert _ _ _ _ hup) (ih _ _ _ h)

/-- The whole traversal only evolves the map. -/
theorem traverse_mapExt {fuel : Nat} {stack : List (JValue × Bool)} {m m' : DepMap}
    (h : traverse_deps fuel stack m = .ok m') : MapExt m m' :=
  traverse_rel mapExt_refl (fun h₁ h₂ => mapExt_trans h₁ h₂)
    (fun _ _ _ _ hu => upsert_mapExt hu) fuel stack m m' h

/-- The whole traversal preserves well-formedness of the map. -/
theorem traverse_keysInv {fuel : Nat} {stack : List (JValue × Bool)} {m m' : DepMap}
    (hk : KeysInv m) (h : traverse_deps fuel stack m = .ok m') : KeysInv m' :=
  traverse_rel (R := fun a b => KeysInv a → KeysInv b) (fun _ => id)
    (fun h₁ h₂ => h₂ ∘ h₁) (fun _ _ _ _ hu hka => upsert_keysInv hka hu)
    fuel stack m m' h hk

/-- The whole traversal never introduces duplicated versions. -/
theorem traverse_versInv {fuel : Nat} {stack : List (JValue × Bool)} {m m' : DepMap}
    (hv : VersInv m) (h : traverse_deps fuel stack m = .ok m') : VersInv m' :=
  traverse_rel (R := fun a b => VersInv a → VersInv b) (fun _ => id)
    (fun h₁ h₂ => h₂ ∘ h₁) (fun _ _ _ _ hu hva => upsert_versInv hva hu)
    fuel stack m m' h hv

/-- Map evolution never loses a recorded version. -/
theorem mapExt_version_mem {m m' : DepMap} {k : String} {e : Entry} {iv : JValue}
    (hext : MapExt m m') (hf : findEntry m k = some e)
    (hiv : iv ∈ e.installed_versions) :
    ∃ e', findEntry m' k = some e' ∧ iv ∈ e'.installed_versions := by
  obtain ⟨e', hf', -, -, -, t, ht⟩ := hext k e hf
  exact ⟨e', hf', by rw [ht]; exact List.mem_append_left t hiv⟩

/-- Versions of any entry found in a duplicate-free map are duplicate-free. -/
theorem versInv_find {m : DepMap} {k : String} {e : Entry}
    (hv : VersInv m) (hf : findEntry m k = some e) :
    e.installed_versions.Nodup :=
  hv _ (findEntry_mem hf)

/-- The empty map is well-formed. -/
theorem keysInv_nil : KeysInv [] :=
  ⟨List.nodup_nil, fun p hp => absurd hp (List.not_mem_nil p)⟩

/-- The empty map has no duplicated versions. -/
theorem versInv_nil : VersInv [] :=
  fun p hp => absurd hp (List.not_mem_nil p)

/-- Stable insertion produces a permutation. -/
theorem insertByName_perm (a : Entry) (l : List Entry) :
    List.Perm (insertByName a l) (a :: l) := by
  induction l with
  | nil => simp [insertByName]
  | cons b t ih =>
    by_cases hab : nameKey a ≤ nameKey b
    · simp [insertByName, hab]
    · simp only [insertByName, if_neg hab]
      exact (ih.cons b).trans (List.Perm.swap a b t)

/-- The sort of line 147 permutes the map's values. -/
theorem sortByName_perm (l : List Entry) : List.Perm (sortByName l) l := by
  induction l with
  | nil => rfl
  | cons a t ih => exact (insertByName_perm a (sortByName t)).trans (ih.cons a)

/-- Stable insertion preserves sortedness by `package_name`. -/
theorem insertByName_pairwise {a : Entry} {l : List Entry}
    (h : l.Pairwise (fun x y => nameKey x ≤ nameKey y)) :
    (insertByName a l).Pairwise (fun x y => nameKey x ≤ nameKey y) := by
  induction l with
  | nil => simp [insertByName]
  | cons b t ih =>
    rw [List.pairwise_cons] at h
    obtain ⟨hb, ht⟩ := h
    by_cases hab : nameKey a ≤ nameKey b
    · simp only [insertByName, if_pos hab]
      rw [List.pairwise_cons]
      refine ⟨?_, List.pairwise_cons.mpr ⟨hb, ht⟩⟩
      intro x hx
      rcases List.mem_cons.mp hx with hx' | hx'
      · subst hx'; exact hab
      · exact le_trans hab (hb x hx')
    · simp only [insertByName, if_neg hab]
      rw [List.pairwise_cons]
      refine ⟨?_, ih ht⟩
      intro x hx
      have hx' : x ∈ a :: t := (insertByName_perm a t).mem_iff.mp hx
      rcases List.mem_cons.mp hx' with hx'' | hx''
      · subst hx''; exact le_of_not_le hab
      · exact hb x hx''

/-- The sort of line 147 orders the output by `package_name`. -/
theorem sortByName_pairwise (l : List Entry) :
    (sortByName l).Pairwise (fun x y => nameKey x ≤ nameKey y) := by
  induction l with
  | nil => exact List.Pairwise.nil
  | cons a t ih => exact insertByName_pairwise ih

/-- C1 counterexample: in `rootFirstForest` the package `a` occurs both as
a top-level root (visited first, at `1.0.0`) and as a nested child of `b`
(at `2.0.0`), yet its output entry has `is_transitive = false`: the
re-encounter branch (lines 127-129) only appends the version and never
upgrades the stored flag, so the claimed order-independence fails. -/
theorem root_then_nested_keeps_nontransitive :
    parse_pipdeptree (some rootFirstForest) =
      .ok [⟨"a", "a", [.str "1.0.0", .str "2.0.0"], false⟩,
           ⟨"b", "b", [.str "0.1"], false⟩] := rfl

/-- C1 (amended): the stored `is_transitive` of an entry is fixed once the
entry exists: any further traversal (hence any later root or nested
re-encounter of the same key) leaves it unchanged — so it is never reverted
from true, but also never upgraded from false; the output flag is the flag
of the key's first pre-order visit. -/
theorem is_transitive_fixed_after_creation
    (fuel : Nat) (stack : List (JValue × Bool)) (m mFinal : DepMap)
    (k : String) (e : Entry)
    (hfind : findEntry m k = some e)
    (hrun : traverse_deps fuel stack m = .ok mFinal) :
    (findEntry mFinal k).map Entry.is_transitive = some e.is_transitive := by
  obtain ⟨e', hf', -, -, h3, -⟩ := traverse_mapExt hrun k e hfind
  rw [hf']
  simpa using h3

/-- C1 witness: merging the nested visit of `a` at `2.0.0` into a map where
`a` was created non-transitive leaves the flag false. -/
theorem is_transitive_fixed_after_creation_witness :
    findEntry wMapA "a" = some ⟨"a", "a", [.str "1.0.0"], false⟩ ∧
    traverse_deps 5 [(wNodeA, true)] wMapA = .ok wMapA2 ∧
    (findEntry wMapA2 "a").map Entry.is_transitive = some false :=
  ⟨rfl, rfl,
    is_transitive_fixed_after_creation 5 [(wNodeA, true)] wMapA wMapA2 "a"
      ⟨"a", "a", [.str "1.0.0"], false⟩ rfl rfl⟩

/-- C2 counterexample: the Java edge-list flattener appends one record per
occurrence (lines 253-256) with no merging, so the input `"1 a\n2 a\n"`
yields two entries with the same normalized key. -/
theorem maven_duplicate_keys_appended :
    parse_maven_tree "1 a\n2 a\n" = [⟨"a", "unknown"⟩, ⟨"a", "unknown"⟩] ∧
    ¬ ((parse_maven_tree "1 a\n2 a\n").map (fun d => pyLower d.name)).Nodup :=
  ⟨rfl, by decide⟩

/-- C2 (amended): key uniqueness holds for the Python tree flattener: the
output of `_parse_pipdeptree` never contains two entries with the same
`key` (the JavaScript and Java flatteners, by contrast, append one record
per occurrence without merging). -/
theorem pipdeptree_keys_unique
    (input : Option JValue) (l : List Entry)
    (h : parse_pipdeptree input = .ok l) :
    (l.map Entry.key).Nodup := by
  cases input with
  | none =>
    simp only [parse_pipdeptree, Except.ok.injEq] at h
    subst h
    simp
  | some j =>
    cases j <;> simp only [parse_pipdeptree, Except.ok.injEq] at h <;>
      try (subst h; simp)
    case arr deps =>
    cases htr : traverse_deps RECURSION_LIMIT (deps.toList.map fun d => (d, false)) [] <;>
      rw [htr] at h
    case error e => cases h
    case ok m =>
    simp only [Except.ok.injEq] at h
    subst h
    have hk : KeysInv m := traverse_keysInv keysInv_nil htr
    have hperm :
        List.Perm ((sortByName (m.map Prod.snd)).map Entry.key)
          ((m.map Prod.snd).map Entry.key) :=
      (sortByName_perm (m.map Prod.snd)).map Entry.key
    have heq : (m.map Prod.snd).map Entry.key = m.map Prod.fst := by
      rw [List.map_map]
      exact List.map_congr_left hk.2
    rw [hperm.nodup_iff, heq]
    exact hk.1

/-- C2 witness: a forest where `a` is met twice (nested under `b`, then as
a root) produces a single merged `a` entry; the output keys are distinct. -/
theorem pipdeptree_keys_unique_witness :
    parse_pipdeptree (some (.arr (jarr [wHostNode, .obj wRootFields]))) =
      .ok [⟨"a", "a", [.str "2.0.0", .str "1.0.0"], true⟩,
           ⟨"b", "b", [.str "0.1"], false⟩] ∧
    (([⟨"a", "a", [.str "2.0.0", .str "1.0.0"], true⟩,
       ⟨"b", "b", [.str "0.1"], false⟩] : List Entry).map Entry.key).Nodup :=
  ⟨rfl,
    pipdeptree_keys_unique (some (.arr (jarr [wHostNode, .obj wRootFields])))
      [⟨"a", "a", [.str "2.0.0", .str "1.0.0"], true⟩,
       ⟨"b", "b", [.str "0.1"], false⟩] rfl⟩

/-- C3 counterexample: structurally parseable input with non-conforming
nodes crashes the parsers: `1` (valid JSON) makes `"dependencies" in data`
raise `TypeError` in `_parse_npm_list`, and `[1]` passes the top-level list
check of `_parse_pipdeptree` but `(1).get` raises `AttributeError`; neither
is caught (only `json.JSONDecodeError` is). -/
theorem typed_malformed_input_crashes :
    parse_npm_list (some (.num 1)) = .error .typeError ∧
    parse_pipdeptree (some (.arr (jarr [.num 1]))) = .error .attributeError :=
  ⟨rfl, rfl⟩

/-- C3 (amended): text that fails structured parsing, or parses to a top
level that is not the required envelope (not a list for pipdeptree; a
mapping without the expected key for npm), yields the empty list without
raising; but valid structured data with non-conforming inner nodes can
raise an unhandled `AttributeError`/`TypeError`. -/
theorem envelope_failure_yields_empty :
    (parse_pipdeptree none = .ok []) ∧
    (∀ j : JValue, (∀ xs : JArray, j ≠ .arr xs) → parse_pipdeptree (some j) = .ok []) ∧
    (parse_npm_list none = .ok []) ∧
    (∀ fs : JObject, hasField fs "dependencies" = false →
      parse_npm_list (some (.obj fs)) = .ok []) := by
  refine ⟨rfl, ?_, rfl, ?_⟩
  · intro j hj
    cases j <;> first | rfl | exact absurd rfl (hj _)
  · intro fs hfs
    simp [parse_npm_list, pyContains, hfs]

/-- C3 witness: a number top level for pipdeptree and a mapping without a
`"dependencies"` key for npm both yield the empty list. -/
theorem envelope_failure_yields_empty_witness :
    parse_pipdeptree (some (.num 7)) = .ok [] ∧
    parse_npm_list (some (.obj .nil)) = .ok [] :=
  ⟨envelope_failure_yields_empty.2.1 (.num 7) (fun _ h => JValue.noConfusion h),
   envelope_failure_yields_empty.2.2.2 .nil rfl⟩

/-- C4: the edge-list input `"1 a\n2 b\n"` yields exactly two records named
by the second whitespace-delimited token of each line with version
`"unknown"`; under the spec's canonical reading each is an entry with
`installed_versions = ["unknown"]` and `is_transitive = false`. -/
theorem edge_list_fallback_concrete :
    parse_maven_tree "1 a\n2 b\n" = [⟨"a", "unknown"⟩, ⟨"b", "unknown"⟩] ∧
    (parse_maven_tree "1 a\n2 b\n").map specCanonOfMavenDep =
      [⟨"a", "a", ["unknown"], false⟩, ⟨"b", "b", ["unknown"], false⟩] :=
  ⟨rfl, rfl⟩

/-- C5 counterexample: the Java flattener returns records in line order
(line 256), so `"1 b\n2 a\n"` is emitted unsorted; sortedness holds only
for the Python tree flattener, not for all three flatteners. -/
theorem maven_output_not_sorted :
    parse_maven_tree "1 b\n2 a\n" = [⟨"b", "unknown"⟩, ⟨"a", "unknown"⟩] ∧
    ¬ (parse_maven_tree "1 b\n2 a\n").Pairwise
        (fun x y => x.name.toList ≤ y.name.toList) :=
  ⟨rfl, by decide⟩

/-- C5 (amended): the Python tree flattener's output is always sorted by
`package_name` (code-point order, stable); the JavaScript and Java
flatteners return traversal/line order, and `installed_versions` keeps
encounter order. -/
theorem pipdeptree_output_sorted
    (input : Option JValue) (l : List Entry)
    (h : parse_pipdeptree input = .ok l) :
    l.Pairwise (fun x y => nameKey x ≤ nameKey y) := by
  cases input with
  | none =>
    simp only [parse_pipdeptree, Except.ok.injEq] at h
    subst h
    simp
  | some j =>
    cases j <;> simp only [parse_pipdeptree, Except.ok.injEq] at h <;>
      try (subst h; simp)
    case arr deps =>
    cases htr : traverse_deps RECURSION_LIMIT (deps.toList.map fun d => (d, false)) [] <;>
      rw [htr] at h
    case error e => cases h
    case ok m =>
    simp only [Except.ok.injEq] at h
    subst h
    exact sortByName_pairwise (m.map Prod.snd)

/-- C5 witness: roots reported in the order `b`, `a` come out sorted as
`a`, `b`. -/
theorem pipdeptree_output_sorted_witness :
    parse_pipdeptree (some (.arr (jarr
      [ .obj (jobj [("package_name", .str "b"), ("installed_version", .str "1")]),
        .obj (jobj [("package_name", .str "a"), ("installed_version", .str "2")]) ]))) =
      .ok [⟨"a", "a", [.str "2"], false⟩, ⟨"b", "b", [.str "1"], false⟩] ∧
    ([⟨"a", "a", [.str "2"], false⟩, ⟨"b", "b", [.str "1"], false⟩] : List Entry).Pairwise
      (fun x y => nameKey x ≤ nameKey y) :=
  ⟨rfl,
    pipdeptree_output_sorted
      (some (.arr (jarr
        [ .obj (jobj [("package_name", .str "b"), ("installed_version", .str "1")]),
          .obj (jobj [("package_name", .str "a"), ("installed_version", .str "2")]) ])))
      [⟨"a", "a", [.str "2"], false⟩, ⟨"b", "b", [.str "1"], false⟩] rfl⟩

/-- C6: a language tag that does not lower-case into the supported set
makes `__init__` raise before any extraction can produce a list; the
failure is a hard error value, never an empty output. -/
theorem unsupported_language_hard_failure
    (language : String)
    (h : pyLower language ∉ SUPPORTED_LANGUAGES) :
    agentInit language = .error (.unsupportedEcosystem (pyLower language)) := by
  simp [agentInit, h]

/-- C6 witness: the tag `"ruby"` is rejected. -/
theorem unsupported_language_hard_failure_witness :
    pyLower "ruby" ∉ SUPPORTED_LANGUAGES ∧
    agentInit "ruby" = .error (.unsupportedEcosystem (pyLower "ruby")) :=
  ⟨by decide, unsupported_language_hard_failure "ruby" (by decide)⟩

/-- C7: after a node with string name `s` is processed (its upsert
succeeded), the rest of the run keeps its version recorded under the
normalized key: the final entry contains the visited version, and no
entry's version list ever contains duplicates.  Instantiating the node at
`1.0.0` as a root and a later nested visit at `2.0.0` gives the claimed
two-version entry. -/
theorem version_accumulation
    (fuel : Nat) (fields : JObject) (tr : Bool)
    (stack : List (JValue × Bool)) (m mFinal : DepMap) (s : String)
    (hname : entryName fields = .str s)
    (hv : VersInv m)
    (hrun : traverse_deps (fuel + 1) ((.obj fields, tr) :: stack) m = .ok mFinal) :
    ∃ e, findEntry mFinal (pyLower s) = some e ∧
      installedVersionOf fields ∈ e.installed_versions ∧
      e.installed_versions.Nodup := by
  simp only [traverse_deps] at hrun
  cases hup : upsertNode fields tr m <;> simp only [hup] at hrun
  case error e => cases hrun
  case ok m₀ =>
  cases hct : childTasks fields <;> simp only [hct] at hrun
  case error e => cases hrun
  case ok ts =>
  obtain ⟨e₀, hf₀, hiv₀⟩ := upsert_adds_version hname hup
  obtain ⟨e₁, hf₁, hiv₁⟩ := mapExt_version_mem (traverse_mapExt hrun) hf₀ hiv₀
  have hv₁ : VersInv mFinal := traverse_versInv (upsert_versInv hv hup) hrun
  exact ⟨e₁, hf₁, hiv₁, versInv_find hv₁ hf₁⟩

/-- C7 witness: `a` visited as a root at `1.0.0` and nested under `b` at
`2.0.0` ends with both versions recorded, without duplicates. -/
theorem version_accumulation_witness :
    entryName wRootFields = .str "a" ∧
    traverse_deps 10 [(.obj wRootFields, false), (wHostNode, false)] [] = .ok wFinalMap ∧
    ∃ e, findEntry wFinalMap (pyLower "a") = some e ∧
      installedVersionOf wRootFields ∈ e.installed_versions ∧
      e.installed_versions.Nodup :=
  ⟨rfl, rfl,
    version_accumulation 9 wRootFields false [(wHostNode, false)] [] wFinalMap "a"
      rfl versInv_nil rfl⟩

/-- C8: a single top-level node named `a` at version `1.0` with no children
round-trips to exactly one canonical entry; a node carrying only the
alternate `key` field falls back to it (case-preserving display name), and
an empty node falls back to the literal `"unknown"` for both name and
version — no abort in either case. -/
theorem trivial_tree_round_trip :
    parse_pipdeptree (some (.arr (jarr
      [ .obj (jobj [("package_name", .str "a"), ("installed_version", .str "1.0"),
                    ("dependencies", .arr .nil)]) ]))) =
      .ok [⟨"a", "a", [.str "1.0"], false⟩] ∧
    parse_pipdeptree (some (.arr (jarr [ .obj (jobj [("key", .str "B")]) ]))) =
      .ok [⟨"b", "B", [.str "unknown"], false⟩] ∧
    parse_pipdeptree (some (.arr (jarr [ .obj .nil ]))) =
      .ok [⟨"unknown", "unknown", [.str "unknown"], false⟩] :=
  ⟨rfl, rfl, rfl⟩

/-- C9: each normalizer is a pure function of the parsed report and the
ecosystem dispatch: equal inputs produce equal (hence byte-identical when
serialized) outputs for all three parsers. -/
theorem normalization_deterministic
    (x y : Option JValue) (s t : String) (hxy : x = y) (hst : s = t) :
    parse_pipdeptree x = parse_pipdeptree y ∧
    parse_npm_list x = parse_npm_list y ∧
    parse_maven_tree s = parse_maven_tree t := by
  subst hxy
  subst hst
  exact ⟨rfl, rfl, rfl⟩

/-- C9 witness: re-running on the concrete forest and edge list reproduces
the same outputs. -/
theorem normalization_deterministic_witness :
    (some rootFirstForest = some rootFirstForest) ∧
    parse_pipdeptree (some rootFirstForest) = parse_pipdeptree (some rootFirstForest) ∧
    parse_npm_list (some rootFirstForest) = parse_npm_list (some rootFirstForest) ∧
    parse_maven_tree "1 a\n2 b\n" = parse_maven_tree "1 a\n2 b\n" :=
  ⟨rfl, normalization_deterministic (some rootFirstForest) (some rootFirstForest)
    "1 a\n2 b\n" "1 a\n2 b\n" rfl rfl⟩

/-- C10: once an entry exists in `dependency_map`, any further traversal
(hence every subsequent encounter of its key) leaves its `key`,
`package_name` and `is_transitive` unchanged and at most appends new
versions to `installed_versions`. -/
theorem upsert_frame_on_reencounter
    (fuel : Nat) (stack : List (JValue × Bool)) (m mFinal : DepMap)
    (k : String) (e : Entry)
    (hfind : findEntry m k = some e)
    (hrun : traverse_deps fuel stack m = .ok mFinal) :
    ∃ e', findEntry mFinal k = some e' ∧
      e'.key = e.key ∧ e'.package_name = e.package_name ∧
      e'.is_transitive = e.is_transitive ∧
      ∃ t, e'.installed_versions = e.installed_versions ++ t :=
  traverse_mapExt hrun k e hfind

/-- C10 witness: a non-transitive root re-visit of `X` at version `2` only
appends the version; key, display name and the transitive flag survive. -/
theorem upsert_frame_on_reencounter_witness :
    findEntry wMapX "x" = some ⟨"x", "X", [.str "1"], true⟩ ∧
    traverse_deps 5 [(wNodeX, false)] wMapX = .ok wMapX2 ∧
    ∃ e', findEntry wMapX2 "x" = some e' ∧
      e'.key = "x" ∧ e'.package_name = "X" ∧ e'.is_transitive = true ∧
      ∃ t, e'.installed_versions = [JValue.str "1"] ++ t :=
  ⟨rfl, rfl,
    upsert_frame_on_reencounter 5 [(wNodeX, false)] wMapX wMapX2 "x"
      ⟨"x", "X", [.str "1"], true⟩ rfl rfl⟩

end DepExtract
